import Mathlib

/-!
Verification development for the source-code knowledge-graph QA script
(`src/app.py`).  The script ingests a directory of source files into a
Neo4j graph of `CodeChunk` nodes keyed by file basename, links
same-language nodes with `SAME_LANGUAGE` edges, and answers questions by
generating and executing Cypher queries.

The graph store is embedded shallowly: the node table is an association
list from names to node data, the Cypher `MERGE (f:CodeChunk {name: $name})
SET f.content = $content, f.language = $language` statement becomes
`upsertChunk`, and the edge `MERGE` becomes an add-if-absent on an edge
list.
-/

namespace S2P

/-- A chunk record as handed to the upsert query (app.py lines 70-74):
`name` from `doc.metadata.get('name', 'Unknown')`, `content` from
`doc.page_content`, `language` from `doc.metadata.get('language', 'Unknown')`. -/
structure Chunk where
  name : String
  content : String
  language : String
deriving DecidableEq

/-- The mutable fields of a `CodeChunk` node (everything but the key). -/
structure NodeData where
  content : String
  language : String
deriving DecidableEq

/-- The fields written by the `SET` clause of the upsert query. -/
def chunkData (c : Chunk) : NodeData := ⟨c.content, c.language⟩

/-- The `CodeChunk` node table: an association list keyed by `name`.
Neo4j `MERGE` on `{name: $name}` keeps at most one node per name, so the
table always has pairwise distinct keys (proved below, not assumed). -/
abbrev Nodes := List (String × NodeData)

/-- Names present in the node table. -/
def keys (ns : Nodes) : List String := ns.map (fun p => p.1)

/-- Embedding of the Cypher statement
`MERGE (f:CodeChunk {name: $name}) SET f.content = $content, f.language = $language`
(app.py lines 66-74): if a node with the chunk's name exists its data is
overwritten, otherwise a fresh node is appended. -/
def upsertChunk : Nodes → Chunk → Nodes
  | [], c => [(c.name, chunkData c)]
  | p :: ps, c =>
      if p.1 = c.name then (c.name, chunkData c) :: ps
      else p :: upsertChunk ps c

/-- Reading a node back by name. -/
def lookupNode (ns : Nodes) (n : String) : Option NodeData :=
  (ns.find? (fun p => p.1 = n)).map (fun p => p.2)

/-- The last chunk in `cs` carrying name `n`, i.e. the last write applied
to the node keyed `n` when the whole list is upserted in order. -/
def lastWrite (cs : List Chunk) (n : String) : Option Chunk :=
  cs.reverse.find? (fun c => c.name = n)

theorem keys_cons (p : String × NodeData) (l : Nodes) :
    keys (p :: l) = p.1 :: keys l := rfl

theorem lookupNode_upsert (ns : Nodes) (c : Chunk) (n : String) :
    lookupNode (upsertChunk ns c) n =
      if n = c.name then some (chunkData c) else lookupNode ns n := by
  induction ns with
  | nil =>
    by_cases hn : n = c.name
    · simp [upsertChunk, lookupNode, List.find?, hn]
    · have hcn : ¬ c.name = n := fun h => hn h.symm
      simp [upsertChunk, lookupNode, List.find?, hn, hcn]
  | cons p ps ih =>
    by_cases hp : p.1 = c.name
    · by_cases hn : n = c.name
      · simp [upsertChunk, hp, lookupNode, List.find?, hn]
      · have hcn : ¬ c.name = n := fun h => hn h.symm
        have hpn : ¬ p.1 = n := by rw [hp]; exact hcn
        simp [upsertChunk, hp, lookupNode, List.find?, hn, hcn, hpn]
    · by_cases hpn : p.1 = n
      · have hn : ¬ n = c.name := by rw [← hpn]; exact hp
        simp [upsertChunk, hp, lookupNode, List.find?, hpn, hn]
      · by_cases hn : n = c.name
        · simpa [upsertChunk, hp, lookupNode, List.find?, hpn, hn] using ih
        · simpa [upsertChunk, hp, lookupNode, List.find?, hpn, hn] using ih

theorem keys_upsert (ns : Nodes) (c : Chunk) :
    keys (upsertChunk ns c) =
      if c.name ∈ keys ns then keys ns else keys ns ++ [c.name] := by
  induction ns with
  | nil => simp [upsertChunk, keys]
  | cons p ps ih =>
    by_cases hp : p.1 = c.name
    · simp [upsertChunk, hp, keys]
    · have hcp : ¬ c.name = p.1 := fun h => hp h.symm
      have hmc : (c.name ∈ keys (p :: ps)) ↔ (c.name ∈ keys ps) := by
        simp [keys_cons, hcp]
      by_cases hmem : c.name ∈ keys ps
      · rw [if_pos (hmc.mpr hmem)]
        simp only [upsertChunk, if_neg hp, keys_cons]
        rw [ih, if_pos hmem]
      · rw [if_neg (fun h => hmem (hmc.mp h))]
        simp only [upsertChunk, if_neg hp, keys_cons]
        rw [ih, if_neg hmem]
        rfl

theorem keys_upsert_nodup (ns : Nodes) (c : Chunk) (h : (keys ns).Nodup) :
    (keys (upsertChunk ns c)).Nodup := by
  rw [keys_upsert]
  by_cases hmem : c.name ∈ keys ns
  · simpa [hmem] using h
  · rw [if_neg hmem]
    refine List.Nodup.append h (List.nodup_singleton _) ?_
    intro a ha hb
    simp at hb
    subst hb
    exact hmem ha

/-- Upserting a whole chunk list in order, as the `for doc in split_docs`
loop of app.py lines 65-74 does. -/
def upsertAll (ns : Nodes) (cs : List Chunk) : Nodes :=
  cs.foldl upsertChunk ns

theorem lastWrite_nil (n : String) : lastWrite [] n = none := rfl

theorem lastWrite_cons (c : Chunk) (cs : List Chunk) (n : String) :
    lastWrite (c :: cs) n =
      (lastWrite cs n).or (if c.name = n then some c else none) := by
  unfold lastWrite
  rw [List.reverse_cons, List.find?_append]
  congr 1
  simp only [List.find?]
  by_cases h : c.name = n <;> simp [h]

theorem lastWrite_append (cs ds : List Chunk) (n : String) :
    lastWrite (cs ++ ds) n = (lastWrite ds n).or (lastWrite cs n) := by
  unfold lastWrite
  rw [List.reverse_append, List.find?_append]

theorem lookupNode_upsertAll (cs : List Chunk) (ns : Nodes) (n : String) :
    lookupNode (upsertAll ns cs) n =
      match lastWrite cs n with
      | some c => some (chunkData c)
      | none => lookupNode ns n := by
  induction cs generalizing ns with
  | nil => simp [upsertAll, lastWrite_nil]
  | cons c cs ih =>
    rw [show upsertAll ns (c :: cs) = upsertAll (upsertChunk ns c) cs from rfl]
    rw [ih, lastWrite_cons]
    cases h : lastWrite cs n with
    | some c' => simp [Option.or]
    | none =>
      simp only [Option.or]
      rw [lookupNode_upsert]
      by_cases hn : n = c.name
      · simp [hn]
      · have hcn : ¬ c.name = n := fun h => hn h.symm
        simp [hn, hcn]

theorem keys_upsertAll_nodup (cs : List Chunk) (ns : Nodes)
    (h : (keys ns).Nodup) : (keys (upsertAll ns cs)).Nodup := by
  induction cs generalizing ns with
  | nil => exact h
  | cons c cs ih => exact ih (upsertChunk ns c) (keys_upsert_nodup ns c h)

/-! ## Documents, naming, and the five-splitter ingestion loop -/

/-- A document as produced by `GenericLoader`/`LanguageParser`: its
`source` path metadata (absent for in-memory documents) and its detected
`language` metadata (absent when no language was detected). -/
structure Document where
  source : Option String
  content : String
  language : Option String
deriving DecidableEq

/-- The part of a path after the last `/`, as `os.path.basename` computes
for POSIX paths.  Implemented over the character list so that concrete
instances reduce. -/
def basename (path : String) : String :=
  ⟨(path.data.reverse.takeWhile (fun ch => ch ≠ '/')).reverse⟩

/-- app.py lines 38-42: each document's `name` metadata is set to the
basename of its `source` path when a source is present, else `'Unknown'`. -/
def docName (d : Document) : String :=
  match d.source with
  | some s => basename s
  | none => "Unknown"

/-- app.py line 73: the language metadata is read with default `'Unknown'`. -/
def docLanguage (d : Document) : String := d.language.getD "Unknown"

/-- The five splitter passes of app.py lines 47-53, in loop order. -/
inductive SplitLang where
  | python | js | go | html | markdown
deriving DecidableEq

/-- `languages = [Language.PYTHON, Language.JS, Language.GO, Language.HTML,
Language.MARKDOWN]` (app.py lines 47-53). -/
def languages : List SplitLang := [.python, .js, .go, .html, .markdown]

/-- One splitter pass over the whole document list (app.py lines 55-61):
`split_documents` splits every document's text — no filtering by the
document's own language — and copies the document's metadata, hence its
`name` and `language`, onto every resulting chunk.  The library splitting
function itself is abstracted as the parameter `split`. -/
def splitPass (split : SplitLang → String → List String) (lang : SplitLang)
    (docs : List Document) : List Chunk :=
  docs.flatMap (fun d =>
    (split lang d.content).map (fun piece => ⟨docName d, piece, docLanguage d⟩))

/-- The splitting-and-upserting loop of app.py lines 55-74: for each of the
five languages, split the entire document list and upsert every resulting
chunk in order. -/
def ingestNodes (split : SplitLang → String → List String)
    (docs : List Document) (ns : Nodes) : Nodes :=
  languages.foldl (fun acc lang => upsertAll acc (splitPass split lang docs)) ns

/-- All chunks written during one ingestion, in upsert order. -/
def allPassChunks (split : SplitLang → String → List String)
    (docs : List Document) : List Chunk :=
  languages.flatMap (fun lang => splitPass split lang docs)

/-- A `SAME_LANGUAGE` edge, identified by the `name` keys of its endpoints
(the store holds at most one node per name). -/
abbrev Edge := String × String

/-- The edge query of app.py lines 77-81: for every ordered pair of
distinct nodes sharing a language value, an edge. -/
def sameLangPairs (ns : Nodes) : List Edge :=
  ns.flatMap (fun a => ns.filterMap (fun b =>
    if a.1 ≠ b.1 ∧ a.2.language = b.2.language then some (a.1, b.1) else none))

/-- Cypher `MERGE` over the edge pattern: add each derived edge that is not
already present; existing edges are never removed. -/
def mergeEdges (old new : List Edge) : List Edge :=
  old ++ new.filter (fun e => !(old.contains e))

/-- The persisted graph store: `CodeChunk` nodes and `SAME_LANGUAGE` edges. -/
structure GraphState where
  nodes : Nodes
  edges : List Edge

/-- The graph mutations of one `load_source_code_to_graph` run
(app.py lines 47-81): the five splitter passes with their upserts,
followed by the same-language edge `MERGE` over the resulting node set. -/
def load_source_code_to_graph (split : SplitLang → String → List String)
    (docs : List Document) (s : GraphState) : GraphState :=
  let ns := ingestNodes split docs s.nodes
  ⟨ns, mergeEdges s.edges (sameLangPairs ns)⟩

theorem upsertAll_append (ns : Nodes) (a b : List Chunk) :
    upsertAll ns (a ++ b) = upsertAll (upsertAll ns a) b := by
  unfold upsertAll
  exact List.foldl_append upsertChunk ns a b

theorem ingestNodes_eq_upsertAll (split : SplitLang → String → List String)
    (docs : List Document) (ns : Nodes) :
    ingestNodes split docs ns = upsertAll ns (allPassChunks split docs) := by
  simp [ingestNodes, allPassChunks, languages, upsertAll_append]

theorem mem_keys_upsert_self (ns : Nodes) (c : Chunk) :
    c.name ∈ keys (upsertChunk ns c) := by
  rw [keys_upsert]
  by_cases h : c.name ∈ keys ns
  · rw [if_pos h]; exact h
  · simp [h]

theorem mem_keys_upsert_mono (ns : Nodes) (c : Chunk) (m : String)
    (h : m ∈ keys ns) : m ∈ keys (upsertChunk ns c) := by
  rw [keys_upsert]
  by_cases hc : c.name ∈ keys ns
  · simpa [hc] using h
  · simp [hc, List.mem_append]
    exact Or.inl h

theorem mem_keys_upsertAll_mono (cs : List Chunk) (ns : Nodes) (m : String)
    (h : m ∈ keys ns) : m ∈ keys (upsertAll ns cs) := by
  induction cs generalizing ns with
  | nil => exact h
  | cons c cs ih =>
    exact ih (upsertChunk ns c) (mem_keys_upsert_mono ns c m h)

theorem mem_keys_upsertAll (cs : List Chunk) (ns : Nodes) (c : Chunk)
    (h : c ∈ cs) : c.name ∈ keys (upsertAll ns cs) := by
  induction cs generalizing ns with
  | nil => cases h
  | cons c' cs ih =>
    rcases List.mem_cons.mp h with h | h
    · subst h
      exact mem_keys_upsertAll_mono cs (upsertChunk ns c) c.name
        (mem_keys_upsert_self ns c)
    · exact ih (upsertChunk ns c') h

theorem keys_upsertAll_stable (cs : List Chunk) (ns : Nodes)
    (h : ∀ c ∈ cs, c.name ∈ keys ns) : keys (upsertAll ns cs) = keys ns := by
  induction cs generalizing ns with
  | nil => rfl
  | cons c cs ih =>
    have hk : keys (upsertChunk ns c) = keys ns := by
      rw [keys_upsert, if_pos (h c (List.mem_cons_self c cs))]
    have := ih (upsertChunk ns c) (fun c' hc' => by
      rw [hk]; exact h c' (List.mem_cons_of_mem c hc'))
    calc keys (upsertAll (upsertChunk ns c) cs) = keys (upsertChunk ns c) := this
      _ = keys ns := hk

theorem length_eq_keys_length (ns : Nodes) : ns.length = (keys ns).length := by
  simp [keys]

/-! ## Claim theorems for the graph indexer -/

/-- C1: chunk node identity is the chunk's name alone — upserting a chunk
list keeps at most one node per name (the key list stays duplicate-free),
and the node keyed `n` afterwards holds exactly the data of the last chunk
named `n` in the list (last-writer-wins, no merging); names untouched by
the list keep their previous data. -/
theorem name_is_sole_identity_last_writer_wins (ns : Nodes) (cs : List Chunk)
    (n : String) (h : (keys ns).Nodup) :
    (keys (upsertAll ns cs)).Nodup ∧
    lookupNode (upsertAll ns cs) n =
      match lastWrite cs n with
      | some c => some (chunkData c)
      | none => lookupNode ns n :=
  ⟨keys_upsertAll_nodup cs ns h, lookupNode_upsertAll cs ns n⟩

/-- Witness for C1: starting from an empty store, upserting two chunks that
share the basename `a.py` (as chunks of two different files with that
basename would) leaves a single node holding the second chunk's data. -/
theorem name_is_sole_identity_last_writer_wins_witness :
    (keys ([] : Nodes)).Nodup ∧
    ((keys (upsertAll [] [⟨"a.py", "A", "python"⟩, ⟨"a.py", "B", "markdown"⟩])).Nodup ∧
     lookupNode (upsertAll [] [⟨"a.py", "A", "python"⟩, ⟨"a.py", "B", "markdown"⟩]) "a.py" =
       match lastWrite [⟨"a.py", "A", "python"⟩, ⟨"a.py", "B", "markdown"⟩] "a.py" with
       | some c => some (chunkData c)
       | none => lookupNode [] "a.py") :=
  ⟨by decide,
   name_is_sole_identity_last_writer_wins [] _ "a.py" (by decide)⟩

theorem lookupNode_ingestNodes (split : SplitLang → String → List String)
    (docs : List Document) (ns : Nodes) (n : String) :
    lookupNode (ingestNodes split docs ns) n =
      match lastWrite (allPassChunks split docs) n with
      | some c => some (chunkData c)
      | none => lookupNode ns n := by
  rw [ingestNodes_eq_upsertAll]
  exact lookupNode_upsertAll _ ns n

/-- C2: running the ingestion pass twice against the same directory
contents (the same documents and splitting behaviour) leaves the node set
identical — same key list, same node count, same data under every name —
while every edge present after the first run is still present after the
second, and the edge count never decreases. -/
theorem reingest_nodes_idempotent_edges_monotone
    (split : SplitLang → String → List String) (docs : List Document)
    (s : GraphState) :
    keys (load_source_code_to_graph split docs
        (load_source_code_to_graph split docs s)).nodes =
      keys (load_source_code_to_graph split docs s).nodes ∧
    (load_source_code_to_graph split docs
        (load_source_code_to_graph split docs s)).nodes.length =
      (load_source_code_to_graph split docs s).nodes.length ∧
    (∀ n, lookupNode (load_source_code_to_graph split docs
        (load_source_code_to_graph split docs s)).nodes n =
      lookupNode (load_source_code_to_graph split docs s).nodes n) ∧
    (∀ e ∈ (load_source_code_to_graph split docs s).edges,
      e ∈ (load_source_code_to_graph split docs
        (load_source_code_to_graph split docs s)).edges) ∧
    (load_source_code_to_graph split docs s).edges.length ≤
      (load_source_code_to_graph split docs
        (load_source_code_to_graph split docs s)).edges.length := by
  have hnodes1 : (load_source_code_to_graph split docs s).nodes
      = ingestNodes split docs s.nodes := rfl
  have hnodes2 : (load_source_code_to_graph split docs
      (load_source_code_to_graph split docs s)).nodes
      = ingestNodes split docs (ingestNodes split docs s.nodes) := rfl
  have hkeys : keys (ingestNodes split docs (ingestNodes split docs s.nodes))
      = keys (ingestNodes split docs s.nodes) := by
    rw [ingestNodes_eq_upsertAll split docs (ingestNodes split docs s.nodes)]
    refine keys_upsertAll_stable _ _ (fun c hc => ?_)
    rw [ingestNodes_eq_upsertAll]
    exact mem_keys_upsertAll _ _ c hc
  refine ⟨by rw [hnodes1, hnodes2]; exact hkeys, ?_, ?_, ?_, ?_⟩
  · rw [hnodes1, hnodes2, length_eq_keys_length, length_eq_keys_length, hkeys]
  · intro n
    rw [hnodes1, hnodes2, lookupNode_ingestNodes, lookupNode_ingestNodes]
    cases h : lastWrite (allPassChunks split docs) n <;> rfl
  · intro e he
    show e ∈ mergeEdges (load_source_code_to_graph split docs s).edges _
    exact List.mem_append_left _ he
  · show (load_source_code_to_graph split docs s).edges.length ≤
      (mergeEdges (load_source_code_to_graph split docs s).edges _).length
    rw [mergeEdges, List.length_append]
    exact Nat.le_add_right _ _

/-- Witness for C2: the edge-preservation conjunct instantiated at a
one-document store built from nothing. -/
theorem reingest_nodes_idempotent_edges_monotone_witness :
    lookupNode (load_source_code_to_graph (fun _ s => [s])
        [⟨some "/r/a.py", "x = 1", some "python"⟩]
        (load_source_code_to_graph (fun _ s => [s])
          [⟨some "/r/a.py", "x = 1", some "python"⟩] ⟨[], []⟩)).nodes "a.py" =
      lookupNode (load_source_code_to_graph (fun _ s => [s])
        [⟨some "/r/a.py", "x = 1", some "python"⟩] ⟨[], []⟩).nodes "a.py" :=
  (reingest_nodes_idempotent_edges_monotone (fun _ s => [s])
    [⟨some "/r/a.py", "x = 1", some "python"⟩] ⟨[], []⟩).2.2.1 "a.py"

/-- C3 (evaluation at the failing input): the naming of app.py lines 38-42
gives every chunk of a physical file the file's basename, so as soon as a
file is split into two chunks the two chunks carry the same name — here
both chunks of `/repo/big.py` are named `big.py` — and they collide on the
node key: upserting them leaves a single node holding only the second
chunk's content.  The claimed per-file uniqueness of chunk names does not
hold. -/
theorem chunk_names_collide_within_one_file :
    (splitPass (fun _ _ => ["AAA", "BBB"]) .python
        [⟨some "/repo/big.py", "AAABBB", some "python"⟩]).map (fun c => c.name) =
      ["big.py", "big.py"] ∧
    (upsertAll [] (splitPass (fun _ _ => ["AAA", "BBB"]) .python
        [⟨some "/repo/big.py", "AAABBB", some "python"⟩])).length = 1 ∧
    lookupNode (upsertAll [] (splitPass (fun _ _ => ["AAA", "BBB"]) .python
        [⟨some "/repo/big.py", "AAABBB", some "python"⟩])) "big.py" =
      some ⟨"BBB", "python"⟩ := by
  refine ⟨?_, ?_, ?_⟩ <;> decide

/-- The chunk lists of the first four splitter passes, before the final
Markdown pass. -/
def prePassChunks (split : SplitLang → String → List String)
    (docs : List Document) : List Chunk :=
  splitPass split .python docs ++ splitPass split .js docs ++
    splitPass split .go docs ++ splitPass split .html docs

theorem allPassChunks_decompose (split : SplitLang → String → List String)
    (docs : List Document) :
    allPassChunks split docs =
      prePassChunks split docs ++ splitPass split .markdown docs := by
  simp [allPassChunks, prePassChunks, languages, List.append_assoc]

/-- C4: the five splitter passes each run over the entire document list and
upsert their chunks in turn, so for every name that receives a chunk in the
final (Markdown) pass, the persisted node content after the run is exactly
the data of the last Markdown-pass chunk with that name — the four earlier
passes and the file's actual language have no effect on the surviving
content. -/
theorem final_markdown_pass_wins (split : SplitLang → String → List String)
    (docs : List Document) (ns : Nodes) (n : String) (c : Chunk)
    (h : lastWrite (splitPass split .markdown docs) n = some c) :
    lookupNode (ingestNodes split docs ns) n = some (chunkData c) := by
  rw [lookupNode_ingestNodes, allPassChunks_decompose, lastWrite_append, h]
  rfl

/-- Witness for C4: one Python file whose Markdown-pass split produces two
chunks; the persisted content is the second Markdown chunk. -/
theorem final_markdown_pass_wins_witness :
    lastWrite (splitPass
        (fun lang s => if lang = .markdown then ["md1", "md2"] else [s]) .markdown
        [⟨some "/r/a.py", "x = 1", some "python"⟩]) "a.py" =
      some ⟨"a.py", "md2", "python"⟩ ∧
    lookupNode (ingestNodes
        (fun lang s => if lang = .markdown then ["md1", "md2"] else [s])
        [⟨some "/r/a.py", "x = 1", some "python"⟩] []) "a.py" =
      some (chunkData ⟨"a.py", "md2", "python"⟩) :=
  ⟨by decide,
   final_markdown_pass_wins
     (fun lang s => if lang = .markdown then ["md1", "md2"] else [s])
     [⟨some "/r/a.py", "x = 1", some "python"⟩] [] "a.py"
     ⟨"a.py", "md2", "python"⟩ (by decide)⟩

/-! ## The Chunker -/

/-- Modelled from the spec: the repository delegates chunking to the
library `RecursiveCharacterTextSplitter` (app.py lines 56-61), whose code
is not part of this repository.  Following the Chunker contract of spec
§4.2, text is first cut into atomic units at separator boundaries, each
unit keeping its trailing separator so no character is dropped.  `acc`
accumulates the characters of the unit currently being read. -/
def splitUnits (sep : Char) : List Char → List Char → List (List Char)
  | [], acc => if acc.isEmpty then [] else [acc]
  | ch :: cs, acc =>
      if ch = sep then (acc ++ [ch]) :: splitUnits sep cs []
      else splitUnits sep cs (acc ++ [ch])

/-- Modelled from the spec: consecutive atomic units are merged greedily
into chunks of at most `C` characters with zero overlap (the configured
`chunk_overlap=0`); a single unit longer than `C` is emitted whole as its
own chunk (spec §4.2 and §8).  `acc` is the chunk being accumulated. -/
def mergeUnits (C : Nat) : List (List Char) → List Char → List (List Char)
  | [], acc => if acc.isEmpty then [] else [acc]
  | u :: us, acc =>
      if acc.length + u.length ≤ C then mergeUnits C us (acc ++ u)
      else if acc.isEmpty then u :: mergeUnits C us []
      else acc :: mergeUnits C us u

/-- Modelled from the spec: the Chunker for one file — split into atomic
units at `sep` boundaries, then pack units into chunks of size at most `C`
(oversize single units excepted). -/
def chunkText (sep : Char) (C : Nat) (s : List Char) : List (List Char) :=
  mergeUnits C (splitUnits sep s []) []

theorem flatten_splitUnits (sep : Char) (cs acc : List Char) :
    (splitUnits sep cs acc).flatten = acc ++ cs := by
  induction cs generalizing acc with
  | nil =>
    by_cases h : acc.isEmpty
    · simp [splitUnits, h, List.isEmpty_iff.mp h]
    · simp [splitUnits, h]
  | cons ch cs ih =>
    by_cases h : ch = sep
    · simp [splitUnits, h, ih]
    · simp only [splitUnits, if_neg h]
      rw [ih]
      simp

theorem flatten_mergeUnits (C : Nat) (us : List (List Char)) (acc : List Char) :
    (mergeUnits C us acc).flatten = acc ++ us.flatten := by
  induction us generalizing acc with
  | nil =>
    by_cases h : acc.isEmpty
    · simp [mergeUnits, h, List.isEmpty_iff.mp h]
    · simp [mergeUnits, h]
  | cons u us ih =>
    by_cases h1 : acc.length + u.length ≤ C
    · simp only [mergeUnits, if_pos h1]
      rw [ih]
      simp
    · by_cases h2 : acc.isEmpty
      · simp only [mergeUnits, if_neg h1, if_pos h2]
        simp [List.isEmpty_iff.mp h2, ih]
      · simp only [mergeUnits, if_neg h1, if_neg h2]
        simp [ih]

/-- C5: the Chunker loses no data — concatenating the chunks of a file in
order (no overlap was inserted, `chunk_overlap=0`) reproduces the file
content exactly, and every input character occurs in some chunk. -/
theorem chunks_reproduce_input (sep : Char) (C : Nat) (s : List Char) :
    (chunkText sep C s).flatten = s ∧
    ∀ a ∈ s, ∃ ch ∈ chunkText sep C s, a ∈ ch := by
  have hjoin : (chunkText sep C s).flatten = s := by
    unfold chunkText
    rw [flatten_mergeUnits, flatten_splitUnits]
    simp
  refine ⟨hjoin, fun a ha => ?_⟩
  rw [← hjoin] at ha
  exact List.mem_flatten.mp ha

/-- Witness for C5: the file `ab\ncd` with chunk size 4 splits into chunks
`ab\n` and `cd`, whose concatenation is the input; the character `a`
appears in a chunk. -/
theorem chunks_reproduce_input_witness :
    (chunkText '\n' 4 ['a', 'b', '\n', 'c', 'd']).flatten =
      ['a', 'b', '\n', 'c', 'd'] ∧
    ∃ ch ∈ chunkText '\n' 4 ['a', 'b', '\n', 'c', 'd'], 'a' ∈ ch :=
  ⟨(chunks_reproduce_input '\n' 4 ['a', 'b', '\n', 'c', 'd']).1,
   (chunks_reproduce_input '\n' 4 ['a', 'b', '\n', 'c', 'd']).2 'a' (by decide)⟩

theorem mergeUnits_bound (C : Nat) (R : List Char → Prop)
    (us : List (List Char)) (acc : List Char)
    (hacc : acc.length ≤ C ∨ R acc) (hus : ∀ u ∈ us, R u) :
    ∀ ch ∈ mergeUnits C us acc, ch.length ≤ C ∨ R ch := by
  induction us generalizing acc with
  | nil =>
    intro ch hch
    by_cases h : acc.isEmpty
    · simp [mergeUnits, h] at hch
    · simp [mergeUnits, h] at hch
      subst hch
      exact hacc
  | cons u us ih =>
    intro ch hch
    by_cases h1 : acc.length + u.length ≤ C
    · simp only [mergeUnits, if_pos h1] at hch
      refine ih (acc ++ u) (Or.inl (by simpa using h1))
        (fun v hv => hus v (List.mem_cons_of_mem u hv)) ch hch
    · by_cases h2 : acc.isEmpty
      · simp only [mergeUnits, if_neg h1, if_pos h2] at hch
        rcases List.mem_cons.mp hch with h | h
        · rw [h]
          exact Or.inr (hus u (List.mem_cons_self u us))
        · exact ih [] (Or.inl (Nat.zero_le C))
            (fun v hv => hus v (List.mem_cons_of_mem u hv)) ch h
      · simp only [mergeUnits, if_neg h1, if_neg h2] at hch
        rcases List.mem_cons.mp hch with h | h
        · subst h
          exact hacc
        · exact ih u (Or.inr (hus u (List.mem_cons_self u us)))
            (fun v hv => hus v (List.mem_cons_of_mem u hv)) ch h

/-- C6: for every chunk size limit `C`, every chunk the Chunker produces
has length at most `C`, except that a chunk longer than `C` is a single
atomic unit of the input (one separator-terminated line), emitted whole. -/
theorem chunk_size_bound (sep : Char) (C : Nat) (s : List Char)
    (ch : List Char) (h : ch ∈ chunkText sep C s) :
    ch.length ≤ C ∨ (C < ch.length ∧ ch ∈ splitUnits sep s []) := by
  have := mergeUnits_bound C (fun u => u ∈ splitUnits sep s [])
    (splitUnits sep s []) [] (Or.inl (Nat.zero_le C)) (fun u hu => hu) ch h
  rcases this with h1 | h1
  · exact Or.inl h1
  · by_cases h2 : ch.length ≤ C
    · exact Or.inl h2
    · exact Or.inr ⟨Nat.lt_of_not_le h2, h1⟩

/-- Witness for C6: with chunk size 2, the oversize line `ab\n` of `ab\ncd`
is produced as a chunk; it exceeds the limit and is exactly an atomic unit
of the input. -/
theorem chunk_size_bound_witness :
    (['a', 'b', '\n'] : List Char).length ≤ 2 ∨
    (2 < (['a', 'b', '\n'] : List Char).length ∧
      ['a', 'b', '\n'] ∈ splitUnits '\n' ['a', 'b', '\n', 'c', 'd'] []) :=
  chunk_size_bound '\n' 2 ['a', 'b', '\n', 'c', 'd'] ['a', 'b', '\n'] (by decide)

/-! ## The Query Engine -/

/-- Python's `s[:n]` character slice, over the character list so that
concrete instances reduce. -/
def strTake (s : String) (n : Nat) : String := ⟨s.data.take n⟩

/-- Python's `s.lower()` (over the ASCII range, the only range the script
compares against), over the character list so that concrete instances
reduce. -/
def strLower (s : String) : String := ⟨s.data.map Char.toLower⟩

/-- One Cypher result row, a dict from column keys to values. -/
abbrev Row := List (String × String)

/-- Python's `row.get(key, default)`. -/
def rowGet (r : Row) (k d : String) : String :=
  ((r.find? (fun p => p.1 = k)).map (fun p => p.2)).getD d

/-- The shapes `chain.run(query)` can produce as far as answer_query
inspects them (app.py lines 155-182): a dict carrying
`intermediate_steps` (with the generated Cypher text and the result
rows), a plain string, or anything else (recorded by its type name). -/
inductive Response where
  | rdict (cypher : String) (result : List Row)
  | rstr (s : String)
  | rother (tyName : String)

/-- The `answer_query` function of app.py lines 149-185.  The chain call —
query generation, validation and execution — can raise, which the `Except`
result embeds; `answer_query` itself always returns an answer string: the
`try`/`except` of lines 150/183-185 converts any exception into the
user-facing error string. -/
def answer_query (chain : String → Except String Response) (q : String) :
    String :=
  match chain q with
  | .error e => "An error occurred while processing your query: " ++ e
  | .ok (.rdict _ result) =>
      if result.isEmpty then
        "No matching data found in the graph for this query."
      else
        match result with
        | r :: _ =>
            if rowGet r "c.content" "" ≠ "" then
              "Found relevant content: " ++ strTake (rowGet r "c.content" "") 1000 ++ "..."
            else
              "No relevant content found in the matched nodes."
        | [] => "Unexpected result format: []"
  | .ok (.rstr s) => s
  | .ok (.rother t) => "Unable to generate an answer. Response structure: " ++ t

/-- C7: a question whose validated query executes and returns zero rows is
answered with the canned empty-result message; `answer_query` returns it as
an ordinary string rather than raising. -/
theorem zero_rows_canned_message (chain : String → Except String Response)
    (q cy : String) (h : chain q = .ok (.rdict cy [])) :
    answer_query chain q =
      "No matching data found in the graph for this query." := by
  simp [answer_query, h, List.isEmpty]

/-- Witness for C7: a chain whose query over the graph yields no rows. -/
theorem zero_rows_canned_message_witness :
    answer_query
        (fun _ => Except.ok (Response.rdict "MATCH (c:CodeChunk) RETURN c.content" []))
        "where is the Go code" =
      "No matching data found in the graph for this query." :=
  zero_rows_canned_message
    (fun _ => Except.ok (Response.rdict "MATCH (c:CodeChunk) RETURN c.content" []))
    "where is the Go code" "MATCH (c:CodeChunk) RETURN c.content" rfl

/-- C8: when the executed query returns rows, the answer is computed from
the first row's `c.content` field alone, truncated to 1000 characters —
the remaining rows do not appear in the answer. -/
theorem first_row_only_truncated (chain : String → Except String Response)
    (q cy : String) (r : Row) (rest : List Row)
    (h : chain q = .ok (.rdict cy (r :: rest))) :
    answer_query chain q =
      if rowGet r "c.content" "" ≠ "" then
        "Found relevant content: " ++ strTake (rowGet r "c.content" "") 1000 ++ "..."
      else
        "No relevant content found in the matched nodes." := by
  simp [answer_query, h, List.isEmpty]

/-- Witness for C8: two result rows; the answer shows only the first row's
content. -/
theorem first_row_only_truncated_witness :
    answer_query
        (fun _ => Except.ok (Response.rdict "q"
          [[("c.content", "package main")], [("c.content", "IGNORED")]]))
        "show go" =
      (if rowGet [("c.content", "package main")] "c.content" "" ≠ "" then
        "Found relevant content: " ++
          strTake (rowGet [("c.content", "package main")] "c.content" "") 1000 ++ "..."
       else "No relevant content found in the matched nodes.") :=
  first_row_only_truncated _ "show go" "q" [("c.content", "package main")]
    [[("c.content", "IGNORED")]] rfl

/-- Python's `user_query.lower() == 'exit'` (app.py line 201). -/
def isExit (q : String) : Bool := strLower q == "exit"

/-- The interactive loop of app.py lines 199-208 over a finite list of
typed questions: stop at the first `exit` (case-insensitive), otherwise
answer the question and continue.  Its body wraps `answer_query` in a
further `try`/`except`, and `answer_query` itself already returns a string
on every path, so every pre-`exit` question yields exactly one answer. -/
def mainLoop (chain : String → Except String Response) :
    List String → List String
  | [] => []
  | q :: qs => if isExit q then [] else answer_query chain q :: mainLoop chain qs

/-- C9: an exception from query generation, validation or execution is
caught inside `answer_query` and rendered as a user-facing error string,
and the interactive loop still produces one answer for every question
before `exit` — no per-question failure cuts the loop short. -/
theorem per_question_errors_never_escape
    (chain : String → Except String Response) (qs : List String)
    (q e : String) (h : chain q = .error e) :
    answer_query chain q = "An error occurred while processing your query: " ++ e ∧
    (mainLoop chain qs).length = (qs.takeWhile (fun q' => !(isExit q'))).length := by
  constructor
  · simp [answer_query, h]
  · induction qs with
    | nil => rfl
    | cons q' qs ih =>
      by_cases hq : isExit q'
      · simp [mainLoop, List.takeWhile_cons, hq]
      · simp [mainLoop, List.takeWhile_cons, hq, ih]

/-- Witness for C9: a chain that always raises; the two questions before
`exit` both still receive (error-string) answers. -/
theorem per_question_errors_never_escape_witness :
    answer_query (fun _ => Except.error "connection refused") "q1" =
      "An error occurred while processing your query: " ++ "connection refused" ∧
    (mainLoop (fun _ => Except.error "connection refused")
        ["q1", "q2", "EXIT", "q3"]).length =
      (["q1", "q2", "EXIT", "q3"].takeWhile (fun q' => !(isExit q'))).length :=
  per_question_errors_never_escape (fun _ => Except.error "connection refused")
    ["q1", "q2", "EXIT", "q3"] "q1" "connection refused" rfl

/-! ## Process entry -/

/-- The hard-coded root directory (app.py line 92). -/
def directory_path : String := "/home/sarah/Documents/AI_Code/fabric"

/-- Observable steps of a process run, in order. -/
inductive Event where
  | ingest (dir : String)
  | countNodes
  | setupChain
  | prompt
  | answered (a : String)
deriving DecidableEq

/-- The prompts and answers of the interactive loop (app.py lines
199-208): each iteration prompts, then stops on `exit` (case-insensitive)
or answers and continues. -/
def loopEvents (chain : String → Except String Response) :
    List String → List Event
  | [] => []
  | q :: qs =>
      .prompt ::
        (if isExit q then [] else .answered (answer_query chain q) :: loopEvents chain qs)

/-- The body of `main()` (app.py lines 188-208): ingest the configured
directory, query the node count, set up the QA chain, then run the
interactive loop. -/
def mainEvents (chain : String → Except String Response) (qs : List String) :
    List Event :=
  .ingest directory_path :: .countNodes :: .setupChain :: loopEvents chain qs

/-- Process entry for `python app.py`: the module body itself calls
`load_source_code_to_graph(directory_path)` (app.py line 93, under the
`# Example usage` comment), and the `__main__` guard (line 215) then runs
`main()`, which ingests the same directory again before the loop. -/
def scriptEvents (chain : String → Except String Response) (qs : List String) :
    List Event :=
  .ingest directory_path :: mainEvents chain qs

def isIngest : Event → Bool
  | .ingest _ => true
  | _ => false

def isPrompt : Event → Bool
  | .prompt => true
  | _ => false

/-- C10 counterexample: at process entry, the part of the run before the
first interactive prompt contains two ingestion passes, not exactly one —
the module-level call of line 93 and the call inside `main()` at line 191
both run before any question is read. -/
theorem ingest_before_loop_not_once :
    ¬ (((scriptEvents (fun _ => Except.error "no api") ["exit"]).takeWhile
          (fun e => !(isPrompt e))).countP isIngest = 1) := by
  decide

/-- C10 as amended: for every chain and every question sequence, exactly
two ingestion passes (both over the configured `directory_path`) run
before the interactive read loop issues its first prompt. -/
theorem ingest_runs_twice_before_loop
    (chain : String → Except String Response) (qs : List String) :
    ((scriptEvents chain qs).takeWhile (fun e => !(isPrompt e))).countP
        (fun e => e == Event.ingest directory_path) = 2 := by
  cases qs with
  | nil =>
    simp [scriptEvents, mainEvents, loopEvents, List.takeWhile_cons,
      isPrompt, List.countP_cons]
  | cons q qs =>
    simp [scriptEvents, mainEvents, loopEvents, List.takeWhile_cons,
      isPrompt, List.countP_cons]

end S2P
